import Mathlib

/-!
Shallow embedding of `src/transcript_tag_analyzer.py` (class `TranscriptTagAnalyzer`
and `main`).  Python insertion-ordered dicts are modelled as association lists in
insertion order; the external classification service is modelled by an explicit
outcome value per call; file contents and persistence are modelled by explicit
state passing.  All definitions are computable so that concrete runs evaluate.
-/

namespace TagAnalyzer

/-- Python dict lookup `m.get(k)` on an insertion-ordered association list:
the value of the (unique, in a real dict) entry whose key is `k`. -/
def dictGet (k : String) : List (String × α) → Option α
  | [] => none
  | p :: t => if p.1 = k then some p.2 else dictGet k t

/-- Python `m[k] = v`: if the key is present, the value is replaced in place
(the entry keeps its insertion position); otherwise the entry is appended. -/
def dictInsert (k : String) (v : α) : List (String × α) → List (String × α)
  | [] => [(k, v)]
  | p :: t => if p.1 = k then (k, v) :: t else p :: dictInsert k v t

/-- Python `m.update(other)`: assign every entry of `other`, in order, into `m`. -/
def dictUpdate (m other : List (String × α)) : List (String × α) :=
  other.foldl (fun acc p => dictInsert p.1 p.2 acc) m

/-- One counting step of `collections.Counter`: `acc[t] = acc.get(t, 0) + 1`. -/
def counterStep (acc : List (String × Nat)) (t : String) : List (String × Nat) :=
  dictInsert t ((dictGet t acc).getD 0 + 1) acc

/-- Python `collections.Counter(tags)` built from a list of tags: counts keyed in
first-seen order (dicts preserve insertion order). -/
def counterOf (tags : List String) : List (String × Nat) :=
  tags.foldl counterStep []

/-- One step of the `tag_frequency` merge loop of `save_batch_results`
(lines 191-194): `existing[tag] = existing.get(tag, 0) + count`. -/
def tfStep (m : List (String × Nat)) (p : String × Nat) : List (String × Nat) :=
  dictInsert p.1 ((dictGet p.1 m).getD 0 + p.2) m

/-- Number of occurrences of the tag `l` in a list of tags. -/
def countL (l : String) : List String → Nat
  | [] => 0
  | t :: ts => countL l ts + (if t = l then 1 else 0)

/-- Sum of the values of all entries of an association list whose key is `l`
(equals the dict value at `l` when keys are unique). -/
def sumValuesFor (l : String) : List (String × Nat) → Nat
  | [] => 0
  | p :: t => (if p.1 = l then p.2 else 0) + sumValuesFor l t

/-- Per-document analysis stored in the results file: the value of
`{"tags": ..., "explanations": ...}` built at line 256 of the source. -/
structure ClassificationResult where
  tags : List String
  explanations : List (String × String)
deriving DecidableEq, Repr

/-- The accumulated results JSON document (`existing_results` in
`save_batch_results`, lines 176-183): its keys in the source order.
`recommended_tags` is `none` when the key is absent from the JSON object. -/
structure AccumulatedState where
  individual_transcript_analysis : List (String × ClassificationResult)
  tag_frequency : List (String × Nat)
  total_transcripts_analyzed : Nat
  total_tags_generated : Nat
  unique_tags : Nat
  batches_processed : Nat
  recommended_tags : Option (List (String × List String))
deriving DecidableEq, Repr

/-- The per-batch results dict built by `process_batch` (lines 230-235). -/
structure BatchResults where
  individual_transcript_analysis : List (String × ClassificationResult)
  tag_frequency : List (String × Nat)
  total_transcripts_analyzed : Nat
  total_tags_generated : Nat
deriving DecidableEq, Repr

/-- A transcript as returned by `read_transcript_files`:
`{"filename": ..., "content": ...}`. -/
structure Document where
  filename : String
  content : String
deriving DecidableEq, Repr

/-- Outcome of one call to the external classification service
(`self.client.chat.completions.create` + `json.loads`, lines 138-145):
* `fail`   - the API call raises (error, timeout) or `json.loads` raises
             (output is not JSON at all);
* `nonDict`- the output parses as JSON but is not a JSON object (so the later
             `.get` attribute access raises);
* `dict`   - the output is a JSON object with the given `tags` and
             `explanations` fields. -/
inductive ApiOutcome where
  | fail
  | nonDict
  | dict (tags : List String) (explanations : List (String × String))
deriving DecidableEq, Repr

/-- A parsed JSON value as seen by the caller of `analyze_transcript_for_tags`. -/
inductive ParsedValue where
  | dict (tags : List String) (explanations : List (String × String))
  | nonDict
deriving DecidableEq, Repr

/-- `analyze_transcript_for_tags` (lines 137-150): the `try` block returns the
parsed JSON; ANY exception (API error, timeout, non-JSON output) is caught and
the function returns `{"tags": [], "explanations": {}}`.  A JSON value that is
not an object is returned as is. -/
def analyze_transcript_for_tags : ApiOutcome → ParsedValue
  | .fail => .dict [] []
  | .nonDict => .nonDict
  | .dict t e => .dict t e

/-- `analyze_single_transcript` (lines 152-161): reads `analysis.get("tags", [])`
and `analysis.get("explanations", {})`.  When the analysis value is not a dict,
the `.get` attribute access raises; the exception escapes (it is not caught
here) and surfaces at `future.result()` in `process_batch`. -/
def analyze_single_transcript (doc : Document) (api : ApiOutcome) :
    Except String (String × ClassificationResult) :=
  match analyze_transcript_for_tags api with
  | .dict t e => .ok (doc.filename, ⟨t, e⟩)
  | .nonDict => .error "AttributeError"

/-- One iteration of the `as_completed` loop in `process_batch` (lines 247-268):
on success the result is stored in the batch dict and the running totals and
tag list are extended; an exception from `future.result()` is printed and the
document is skipped.  The state is `(batch_results, all_tags)`. -/
def pbStep (acc : BatchResults × List String) (p : Document × ApiOutcome) :
    BatchResults × List String :=
  match analyze_single_transcript p.1 p.2 with
  | .ok (fn, res) =>
      ({ acc.1 with
          individual_transcript_analysis :=
            dictInsert fn res acc.1.individual_transcript_analysis
          total_transcripts_analyzed := acc.1.total_transcripts_analyzed + 1
          total_tags_generated := acc.1.total_tags_generated + res.tags.length },
        acc.2 ++ res.tags)
  | .error _ => acc

/-- `process_batch` (lines 220-276): run the loop over the batch (the
`as_completed` completion order is modelled by the order of the input list;
other completion orders are obtained by permuting it), then set
`tag_frequency = dict(Counter(all_tags))`.  The per-document classifier
behaviour is attached to each document as its `ApiOutcome`. -/
def process_batch (batch : List (Document × ApiOutcome)) : BatchResults :=
  let r := batch.foldl pbStep (⟨[], [], 0, 0⟩, [])
  { r.1 with tag_frequency := counterOf r.2 }

/-- The fresh `existing_results` dict created by `save_batch_results` when no
output file exists (lines 176-183); it has no `recommended_tags` key. -/
def emptyState : AccumulatedState := ⟨[], [], 0, 0, 0, 0, none⟩

/-- The merge performed by `save_batch_results` (lines 185-208) on the loaded
state: `update` the per-document dict, add the batch tag counts into
`tag_frequency`, add the two totals, recompute `unique_tags` as the number of
distinct frequency keys, and increment `batches_processed`.  Any
`recommended_tags` key already in the file is carried through unchanged. -/
def save_batch_results (existing : AccumulatedState) (results : BatchResults) :
    AccumulatedState :=
  let ita := dictUpdate existing.individual_transcript_analysis
      results.individual_transcript_analysis
  let tf := results.tag_frequency.foldl tfStep existing.tag_frequency
  { individual_transcript_analysis := ita
    tag_frequency := tf
    total_transcripts_analyzed :=
      existing.total_transcripts_analyzed + results.total_transcripts_analyzed
    total_tags_generated :=
      existing.total_tags_generated + results.total_tags_generated
    unique_tags := (tf.map Prod.fst).dedup.length
    batches_processed := existing.batches_processed + 1
    recommended_tags := existing.recommended_tags }

/-- The messages printed by `save_batch_results` on a successful save
(lines 214-215): one fixed line naming the output file and batch number.
Nothing printed by the merge depends on the batch contents; in particular no
message is conditional on a duplicate document id. -/
def save_batch_results_log (outputFile : String) (batchNum : Option Nat) :
    List String :=
  match batchNum with
  | some n => [s!"Batch results saved to {outputFile} (batch {n})"]
  | none => [s!"Batch results saved to {outputFile}"]

/-- `save_batch_results` viewed together with its printed output. -/
def save_batch_results_with_log (existing : AccumulatedState)
    (results : BatchResults) (outputFile : String) (batchNum : Option Nat) :
    AccumulatedState × List String :=
  (save_batch_results existing results, save_batch_results_log outputFile batchNum)

/-- The resume filter in `main` (lines 493-507): with `--resume` and an
existing output file, keep exactly the transcripts whose filename is not a key
of `individual_transcript_analysis`; otherwise (no flag, or no prior file) the
full list is processed. -/
def resume_work_list (resumeFlag : Bool) (existing : Option AccumulatedState)
    (transcripts : List Document) : List Document :=
  match resumeFlag, existing with
  | true, some st =>
      transcripts.filter
        (fun t => decide
          (t.filename ∉ st.individual_transcript_analysis.map Prod.fst))
  | _, _ => transcripts

/-- The batch loop of `generate_comprehensive_tag_suggestions` (lines 296-306)
together with the exception handler of `save_batch_results` (lines 217-218):
every batch is dispatched (`process_batch` is called) in order; the snapshot
write may fail, in which case the exception is caught, printed, and the
persisted state is left unchanged (the in-memory merge is local and lost).
Each list element is one batch paired with whether its snapshot write
succeeds.  Returns the number of batches dispatched and the final persisted
state. -/
def schedule_batches : List (List (Document × ApiOutcome) × Bool) →
    AccumulatedState → Nat × AccumulatedState
  | [], s => (0, s)
  | (b, ok) :: rest, s =>
      let s' := if ok then save_batch_results s (process_batch b) else s
      let r := schedule_batches rest s'
      (r.1 + 1, r.2)

/-- Contents of the output file observable by a concurrent reader during the
snapshot write of `save_batch_results` (lines 211-212):
`open(output_file, "w")` truncates the file in place, then `json.dump` streams
the serialization into it.  The reader can observe the previous contents
(before the open), then every initial segment of the new serialization,
starting with the empty truncated file and ending with the complete new
contents.  No temporary file and no rename are used. -/
def persistObservable (old new : String) : List String :=
  old :: (List.range (new.length + 1)).map (fun n => String.mk (new.data.take n))

/-- Atomicity of a snapshot write with respect to readers, as the spec demands
it: every observable state is either the complete previous snapshot or the
complete new snapshot. -/
def AtomicSnapshotWrite (old new : String) (states : List String) : Prop :=
  ∀ s ∈ states, s = old ∨ s = new

/-- Stable insertion used to model Python `sorted(..., key=count, reverse=True)`
(the documented semantics of `Counter.most_common`): a new element is placed
after every element of count ≥ its own, so elements of equal count keep their
original (first-seen) order. -/
def insertDesc (x : String × Nat) : List (String × Nat) → List (String × Nat)
  | [] => [x]
  | y :: t => if x.2 ≤ y.2 then y :: insertDesc x t else x :: y :: t

/-- Python stable descending sort by count: elements processed in list order,
each inserted by `insertDesc`. -/
def pyStableSortDesc (l : List (String × Nat)) : List (String × Nat) :=
  l.foldl (fun acc x => insertDesc x acc) []

/-- `Counter.most_common(n)`: the `n` entries of largest count, ties in
first-seen order. -/
def most_common (n : Nat) (freq : List (String × Nat)) : List (String × Nat) :=
  (pyStableSortDesc freq).take n

/-- Outcome of the categorization call of `generate_final_recommendations`
(lines 367-376): `ok` when the API call succeeds and its output parses as a
JSON object of categories, `fail` when the call raises or `json.loads` raises
(unparseable output). -/
inductive CategorizeOutcome where
  | ok (recs : List (String × List String))
  | fail
deriving DecidableEq, Repr

/-- `generate_final_recommendations` (lines 341-381): compute
`most_common_tags` from the top 20 frequency entries; on a successful
categorization call return its parsed output, on any exception fall back to
`{"Most_Common_Tags": most_common_tags[:10]}`. -/
def generate_final_recommendations (api : CategorizeOutcome)
    (tag_frequency : List (String × Nat)) : List (String × List String) :=
  let most_common_tags := (most_common 20 tag_frequency).map Prod.fst
  match api with
  | .ok recs => recs
  | .fail => [("Most_Common_Tags", most_common_tags.take 10)]

/-- The final-recommendation step of `generate_comprehensive_tag_suggestions`
(lines 321-331): only when the loaded `tag_frequency` dict is non-empty is
`generate_final_recommendations` invoked and the `recommended_tags` key set.
Returns whether the recommendation engine was invoked, and the final results
value that is then persisted. -/
def finalize_results (api : CategorizeOutcome) (final : AccumulatedState) :
    Bool × AccumulatedState :=
  if final.tag_frequency = [] then (false, final)
  else (true, { final with
    recommended_tags := some (generate_final_recommendations api final.tag_frequency) })

/-- A full fresh run's sequence of persisted states (lines 287-306 with all
snapshot writes succeeding): the output file is removed first, so accumulation
starts from the empty state and folds one merge per batch. -/
def run_merges (batches : List (List (Document × ApiOutcome))) : AccumulatedState :=
  batches.foldl (fun s b => save_batch_results s (process_batch b)) emptyState

/-- Characters stripped by Python `str.strip()` (ASCII whitespace; the Unicode
whitespace also stripped by Python is irrelevant to the properties proved). -/
def isPySpace (c : Char) : Bool :=
  c == ' ' || c == '\t' || c == '\n' || c == '\r' || c == '\x0b' || c == '\x0c'

/-- List-level strip: drop leading and trailing whitespace characters. -/
def stripChars (l : List Char) : List Char :=
  ((l.dropWhile isPySpace).reverse.dropWhile isPySpace).reverse

/-- Python `s.strip()`. -/
def pyStrip (s : String) : String := ⟨stripChars s.data⟩

/-- Result of reading one file inside the `try` of `read_transcript_files`:
either the raw contents, or an exception while opening/reading. -/
inductive FileRead where
  | ok (raw : String)
  | err
deriving DecidableEq, Repr

/-- One iteration of the file loop of `read_transcript_files` (lines 50-62):
a read error is printed and the file skipped; otherwise the content is
stripped and the transcript appended only when the stripped content is
non-empty (the `if content:` truthiness test at line 54).  Whitespace-only
files are skipped without any message. -/
def readStep (acc : List Document) (f : String × FileRead) : List Document :=
  match f.2 with
  | .err => acc
  | .ok raw =>
      if pyStrip raw = "" then acc else acc ++ [⟨f.1, pyStrip raw⟩]

/-- `read_transcript_files` (lines 39-65): fold the file loop over the `.txt`
files of the directory (in glob order), starting from the empty list. -/
def read_transcript_files (files : List (String × FileRead)) : List Document :=
  files.foldl readStep []

/-- The per-file contribution of `read_transcript_files`, as an option. -/
def readFilter (f : String × FileRead) : Option Document :=
  match f.2 with
  | .err => none
  | .ok raw =>
      if pyStrip raw = "" then none else some ⟨f.1, pyStrip raw⟩

/-! Association-list (Python dict) lemmas. -/

theorem dictGet_dictInsert (k k' : String) (v : α) (m : List (String × α)) :
    dictGet k (dictInsert k' v m) = if k' = k then some v else dictGet k m := by
  induction m with
  | nil => simp [dictInsert, dictGet]
  | cons p t ih =>
      show dictGet k (if p.1 = k' then (k', v) :: t else p :: dictInsert k' v t) = _
      by_cases h : p.1 = k'
      · rw [if_pos h]
        by_cases hk : k' = k
        · simp [dictGet, hk]
        · have hpk : ¬ p.1 = k := by rw [h]; exact hk
          simp [dictGet, hk, hpk]
      · rw [if_neg h]
        by_cases hpk : p.1 = k
        · have hk : ¬ k' = k := fun he => h (hpk.trans he.symm)
          simp [dictGet, hpk, hk]
        · simp [dictGet, hpk, ih]

theorem mem_map_fst_dictInsert (a k : String) (v : α) (m : List (String × α)) :
    a ∈ (dictInsert k v m).map Prod.fst ↔ a = k ∨ a ∈ m.map Prod.fst := by
  induction m with
  | nil => simp [dictInsert]
  | cons p t ih =>
      show a ∈ (if p.1 = k then (k, v) :: t else p :: dictInsert k v t).map Prod.fst ↔ _
      by_cases h : p.1 = k
      · rw [if_pos h]
        simp only [List.map_cons, List.mem_cons, h]
        tauto
      · rw [if_neg h]
        simp only [List.map_cons, List.mem_cons, ih]
        tauto

theorem keys_nodup_dictInsert (k : String) (v : α) (m : List (String × α))
    (hm : (m.map Prod.fst).Nodup) : ((dictInsert k v m).map Prod.fst).Nodup := by
  induction m with
  | nil => simp [dictInsert]
  | cons p t ih =>
      simp only [List.map_cons, List.nodup_cons] at hm
      by_cases h : p.1 = k
      · subst h
        simpa [dictInsert] using hm
      · have := ih hm.2
        simp only [dictInsert, h, if_false, List.map_cons, List.nodup_cons]
        refine ⟨fun hc => ?_, this⟩
        rcases (mem_map_fst_dictInsert p.1 k v t).mp hc with h1 | h2
        · exact h h1
        · exact hm.1 h2

theorem dictGet_eq_none_iff (k : String) (m : List (String × α)) :
    dictGet k m = none ↔ k ∉ m.map Prod.fst := by
  induction m with
  | nil => simp [dictGet]
  | cons p t ih =>
      show (if p.1 = k then some p.2 else dictGet k t) = none ↔ _
      by_cases h : p.1 = k
      · simp [h]
      · simp only [if_neg h, ih, List.map_cons, List.mem_cons]
        constructor
        · intro hn hc
          rcases hc with he | hm
          · exact h he.symm
          · exact hn hm
        · intro hn hm
          exact hn (Or.inr hm)

theorem dictInsert_of_not_mem (k : String) (v : α) (m : List (String × α))
    (h : k ∉ m.map Prod.fst) : dictInsert k v m = m ++ [(k, v)] := by
  induction m with
  | nil => simp [dictInsert]
  | cons p t ih =>
      simp only [List.map_cons, List.mem_cons] at h
      push_neg at h
      have hp : ¬ p.1 = k := fun he => h.1 he.symm
      simp [dictInsert, hp, ih h.2]

theorem dictGet_append_of_not_mem (k : String) (m m' : List (String × α))
    (h : k ∉ m.map Prod.fst) : dictGet k (m ++ m') = dictGet k m' := by
  induction m with
  | nil => simp
  | cons p t ih =>
      simp only [List.map_cons, List.mem_cons] at h
      push_neg at h
      have hp : ¬ p.1 = k := fun he => h.1 he.symm
      simp [dictGet, hp, ih h.2]

theorem dictUpdate_cons (m : List (String × α)) (p : String × α)
    (other : List (String × α)) :
    dictUpdate m (p :: other) = dictUpdate (dictInsert p.1 p.2 m) other := rfl

theorem dictUpdate_fresh (m other : List (String × α))
    (hfresh : ∀ q ∈ other, q.1 ∉ m.map Prod.fst)
    (hnd : (other.map Prod.fst).Nodup) : dictUpdate m other = m ++ other := by
  induction other generalizing m with
  | nil => simp [dictUpdate]
  | cons p t ih =>
      rw [dictUpdate_cons,
        dictInsert_of_not_mem p.1 p.2 m (hfresh p (List.mem_cons_self p t))]
      simp only [List.map_cons, List.nodup_cons] at hnd
      rw [ih (m ++ [(p.1, p.2)]) ?_ hnd.2]
      · simp
      · intro q hq
        simp only [List.map_append, List.mem_append, List.map_cons]
        push_neg
        refine ⟨fun hc => hfresh q (List.mem_cons_of_mem p hq) hc, ?_⟩
        simp only [List.map_nil, List.mem_singleton]
        intro he
        exact hnd.1 (he ▸ List.mem_map_of_mem Prod.fst hq)

theorem dictGet_dictUpdate_of_not_mem (k : String) (m other : List (String × α))
    (h : k ∉ other.map Prod.fst) : dictGet k (dictUpdate m other) = dictGet k m := by
  induction other generalizing m with
  | nil => simp [dictUpdate]
  | cons p t ih =>
      simp only [List.map_cons, List.mem_cons] at h
      push_neg at h
      rw [dictUpdate_cons, ih _ h.2, dictGet_dictInsert,
        if_neg (fun he : p.1 = k => h.1 he.symm)]

theorem dictGet_dictUpdate_of_mem (k : String) (v : α) (m other : List (String × α))
    (hnd : (other.map Prod.fst).Nodup) (hmem : (k, v) ∈ other) :
    dictGet k (dictUpdate m other) = some v := by
  induction other generalizing m with
  | nil => simp at hmem
  | cons p t ih =>
      simp only [List.map_cons, List.nodup_cons] at hnd
      rcases List.mem_cons.mp hmem with he | ht
      · have hk : p.1 = k := by rw [← he]
        have : k ∉ t.map Prod.fst := hk ▸ hnd.1
        rw [dictUpdate_cons, dictGet_dictUpdate_of_not_mem k _ t this,
          dictGet_dictInsert]
        simp [hk, ← he]
      · rw [dictUpdate_cons]
        exact ih _ hnd.2 ht

/-! Counter and tag-frequency-merge lemmas. -/

theorem countL_append (l : String) (a b : List String) :
    countL l (a ++ b) = countL l a + countL l b := by
  induction a with
  | nil => simp [countL]
  | cons t ts ih => simp [countL, ih]; omega

theorem getD_counterStep (acc : List (String × Nat)) (t l : String) :
    (dictGet l (counterStep acc t)).getD 0 =
      (dictGet l acc).getD 0 + (if t = l then 1 else 0) := by
  unfold counterStep
  rw [dictGet_dictInsert]
  by_cases h : t = l
  · simp [h]
  · simp [h]

theorem getD_counter_foldl (tags : List String) (acc : List (String × Nat))
    (l : String) :
    (dictGet l (tags.foldl counterStep acc)).getD 0 =
      (dictGet l acc).getD 0 + countL l tags := by
  induction tags generalizing acc with
  | nil => simp [countL]
  | cons t ts ih =>
      simp only [List.foldl_cons, countL]
      rw [ih, getD_counterStep]
      omega

theorem counterOf_getD (tags : List String) (l : String) :
    (dictGet l (counterOf tags)).getD 0 = countL l tags := by
  unfold counterOf
  rw [getD_counter_foldl]
  simp [dictGet]

theorem keys_nodup_counter_foldl (tags : List String) (acc : List (String × Nat))
    (h : (acc.map Prod.fst).Nodup) :
    ((tags.foldl counterStep acc).map Prod.fst).Nodup := by
  induction tags generalizing acc with
  | nil => simpa using h
  | cons t ts ih =>
      exact ih _ (keys_nodup_dictInsert _ _ _ h)

theorem keys_nodup_counterOf (tags : List String) :
    ((counterOf tags).map Prod.fst).Nodup :=
  keys_nodup_counter_foldl tags [] (by simp)

theorem sumValuesFor_eq_zero (l : String) (m : List (String × Nat))
    (h : l ∉ m.map Prod.fst) : sumValuesFor l m = 0 := by
  induction m with
  | nil => rfl
  | cons p t ih =>
      simp only [List.map_cons, List.mem_cons] at h
      push_neg at h
      show (if p.1 = l then p.2 else 0) + sumValuesFor l t = 0
      rw [if_neg (fun he : p.1 = l => h.1 he.symm), ih h.2]

theorem sumValuesFor_eq_getD (l : String) (m : List (String × Nat))
    (hnd : (m.map Prod.fst).Nodup) :
    sumValuesFor l m = (dictGet l m).getD 0 := by
  induction m with
  | nil => rfl
  | cons p t ih =>
      simp only [List.map_cons, List.nodup_cons] at hnd
      show (if p.1 = l then p.2 else 0) + sumValuesFor l t =
        (if p.1 = l then some p.2 else dictGet l t).getD 0
      by_cases h : p.1 = l
      · rw [if_pos h, if_pos h, sumValuesFor_eq_zero l t (h ▸ hnd.1)]
        simp
      · rw [if_neg h, if_neg h, ih hnd.2]
        simp

theorem sumValuesFor_counterOf (l : String) (tags : List String) :
    sumValuesFor l (counterOf tags) = countL l tags := by
  rw [sumValuesFor_eq_getD l _ (keys_nodup_counterOf tags), counterOf_getD]

theorem getD_tf_foldl (bf existing : List (String × Nat)) (l : String) :
    (dictGet l (bf.foldl tfStep existing)).getD 0 =
      (dictGet l existing).getD 0 + sumValuesFor l bf := by
  induction bf generalizing existing with
  | nil => simp [sumValuesFor]
  | cons p t ih =>
      simp only [List.foldl_cons, sumValuesFor]
      rw [ih]
      unfold tfStep
      rw [dictGet_dictInsert]
      by_cases h : p.1 = l
      · simp [h]; omega
      · simp [h]

/-! Decomposition of `process_batch` into the successful results of the batch. -/

/-- The successful per-document results of a batch, in completion order: the
BatchOutcome of the spec. -/
def okResults (batch : List (Document × ApiOutcome)) :
    List (String × ClassificationResult) :=
  batch.filterMap (fun p => (analyze_single_transcript p.1 p.2).toOption)

/-- Document ids stored by a batch, in completion order. -/
def storedNames (batch : List (Document × ApiOutcome)) : List String :=
  (okResults batch).map Prod.fst

/-- The `all_tags` list accumulated by the `process_batch` loop. -/
def allTagsOf (batch : List (Document × ApiOutcome)) : List String :=
  ((okResults batch).map (fun p => p.2.tags)).flatten

theorem pb_fold_ita (batch : List (Document × ApiOutcome))
    (acc : BatchResults × List String) :
    (batch.foldl pbStep acc).1.individual_transcript_analysis =
      dictUpdate acc.1.individual_transcript_analysis (okResults batch) := by
  induction batch generalizing acc with
  | nil => simp [okResults, dictUpdate]
  | cons p bt ih =>
      simp only [List.foldl_cons]
      rw [ih]
      cases hE : analyze_single_transcript p.1 p.2 with
      | ok r =>
          simp [pbStep, hE, okResults, List.filterMap_cons, Except.toOption,
            dictUpdate_cons]
      | error e =>
          simp [pbStep, hE, okResults, List.filterMap_cons, Except.toOption]

theorem pb_fold_tta (batch : List (Document × ApiOutcome))
    (acc : BatchResults × List String) :
    (batch.foldl pbStep acc).1.total_transcripts_analyzed =
      acc.1.total_transcripts_analyzed + (okResults batch).length := by
  induction batch generalizing acc with
  | nil => simp [okResults]
  | cons p bt ih =>
      simp only [List.foldl_cons]
      rw [ih]
      cases hE : analyze_single_transcript p.1 p.2 with
      | ok r =>
          simp [pbStep, hE, okResults, List.filterMap_cons, Except.toOption]
          omega
      | error e =>
          simp [pbStep, hE, okResults, List.filterMap_cons, Except.toOption]

theorem pb_fold_ttg (batch : List (Document × ApiOutcome))
    (acc : BatchResults × List String) :
    (batch.foldl pbStep acc).1.total_tags_generated =
      acc.1.total_tags_generated +
        ((okResults batch).map (fun p => p.2.tags.length)).sum := by
  induction batch generalizing acc with
  | nil => simp [okResults]
  | cons p bt ih =>
      simp only [List.foldl_cons]
      rw [ih]
      cases hE : analyze_single_transcript p.1 p.2 with
      | ok r =>
          simp [pbStep, hE, okResults, List.filterMap_cons, Except.toOption]
          omega
      | error e =>
          simp [pbStep, hE, okResults, List.filterMap_cons, Except.toOption]

theorem pb_fold_tags (batch : List (Document × ApiOutcome))
    (acc : BatchResults × List String) :
    (batch.foldl pbStep acc).2 = acc.2 ++ allTagsOf batch := by
  induction batch generalizing acc with
  | nil => simp [allTagsOf, okResults]
  | cons p bt ih =>
      simp only [List.foldl_cons]
      rw [ih]
      cases hE : analyze_single_transcript p.1 p.2 with
      | ok r =>
          simp [pbStep, hE, allTagsOf, okResults, List.filterMap_cons,
            Except.toOption]
      | error e =>
          simp [pbStep, hE, allTagsOf, okResults, List.filterMap_cons,
            Except.toOption]

theorem process_batch_ita (batch : List (Document × ApiOutcome)) :
    (process_batch batch).individual_transcript_analysis =
      dictUpdate [] (okResults batch) := by
  simp [process_batch, pb_fold_ita]

theorem process_batch_ita_of_nodup (batch : List (Document × ApiOutcome))
    (hnd : (storedNames batch).Nodup) :
    (process_batch batch).individual_transcript_analysis = okResults batch := by
  rw [process_batch_ita, dictUpdate_fresh _ _ (by simp) hnd]
  simp

theorem process_batch_tta (batch : List (Document × ApiOutcome)) :
    (process_batch batch).total_transcripts_analyzed = (okResults batch).length := by
  simp [process_batch, pb_fold_tta]

theorem process_batch_ttg (batch : List (Document × ApiOutcome)) :
    (process_batch batch).total_tags_generated =
      ((okResults batch).map (fun p => p.2.tags.length)).sum := by
  simp [process_batch, pb_fold_ttg]

theorem process_batch_tf (batch : List (Document × ApiOutcome)) :
    (process_batch batch).tag_frequency = counterOf (allTagsOf batch) := by
  simp [process_batch, pb_fold_tags]

/-! Label-occurrence counting over stored results. -/

/-- Total number of occurrences of label `l` across the `tags` sequences of all
stored results. -/
def labelOccurrences (l : String)
    (ita : List (String × ClassificationResult)) : Nat :=
  (ita.map (fun p => countL l p.2.tags)).sum

theorem labelOccurrences_append (l : String)
    (a b : List (String × ClassificationResult)) :
    labelOccurrences l (a ++ b) = labelOccurrences l a + labelOccurrences l b := by
  simp [labelOccurrences]

theorem countL_join (l : String) (L : List (List String)) :
    countL l L.flatten = (L.map (countL l)).sum := by
  induction L with
  | nil => rfl
  | cons a t ih => simp [List.flatten, countL_append, ih]

theorem labelOccurrences_eq_countL_allTags (l : String)
    (lst : List (String × ClassificationResult)) :
    labelOccurrences l lst = countL l ((lst.map (fun p => p.2.tags)).flatten) := by
  rw [countL_join, List.map_map]
  rfl

/-! Invariants of the accumulated state. -/

/-- Frequency invariant in occurrence form: the count recorded in
`tag_frequency` for every label equals the total number of occurrences of that
label across the `tags` sequences of all stored results. -/
def FreqInvariant (s : AccumulatedState) : Prop :=
  ∀ l, (dictGet l s.tag_frequency).getD 0 =
    labelOccurrences l s.individual_transcript_analysis

/-- Totals invariant: `total_transcripts_analyzed` equals the number of stored
results and `total_tags_generated` equals the summed lengths of their `tags`. -/
def TotalsInvariant (s : AccumulatedState) : Prop :=
  s.total_transcripts_analyzed = s.individual_transcript_analysis.length ∧
  s.total_tags_generated =
    (s.individual_transcript_analysis.map (fun p => p.2.tags.length)).sum

theorem save_ita_fresh (s : AccumulatedState)
    (batch : List (Document × ApiOutcome))
    (hnd : (storedNames batch).Nodup)
    (hfresh : ∀ n ∈ storedNames batch,
      dictGet n s.individual_transcript_analysis = none) :
    (save_batch_results s (process_batch batch)).individual_transcript_analysis =
      s.individual_transcript_analysis ++ okResults batch := by
  show dictUpdate s.individual_transcript_analysis
      (process_batch batch).individual_transcript_analysis = _
  rw [process_batch_ita_of_nodup _ hnd]
  refine dictUpdate_fresh _ _ (fun q hq => ?_) hnd
  exact (dictGet_eq_none_iff _ _).mp
    (hfresh q.1 (List.mem_map_of_mem Prod.fst hq))

theorem save_tf_getD (s : AccumulatedState) (br : BatchResults) (l : String) :
    (dictGet l (save_batch_results s br).tag_frequency).getD 0 =
      (dictGet l s.tag_frequency).getD 0 + sumValuesFor l br.tag_frequency := by
  show (dictGet l (br.tag_frequency.foldl tfStep s.tag_frequency)).getD 0 = _
  exact getD_tf_foldl _ _ _

theorem save_tta (s : AccumulatedState) (br : BatchResults) :
    (save_batch_results s br).total_transcripts_analyzed =
      s.total_transcripts_analyzed + br.total_transcripts_analyzed := rfl

theorem save_ttg (s : AccumulatedState) (br : BatchResults) :
    (save_batch_results s br).total_tags_generated =
      s.total_tags_generated + br.total_tags_generated := rfl

/-! Properties of the stable descending sort used by `most_common`. -/

/-- Sorted by non-increasing count. -/
def SortedDesc (l : List (String × Nat)) : Prop :=
  List.Pairwise (fun a b => b.2 ≤ a.2) l

theorem insertDesc_perm (x : String × Nat) (l : List (String × Nat)) :
    List.Perm (insertDesc x l) (x :: l) := by
  induction l with
  | nil => exact List.Perm.refl _
  | cons y t ih =>
      show List.Perm (if x.2 ≤ y.2 then y :: insertDesc x t else x :: y :: t) _
      by_cases h : x.2 ≤ y.2
      · rw [if_pos h]
        exact (List.Perm.cons y ih).trans (List.Perm.swap x y t)
      · rw [if_neg h]

theorem insertDesc_sorted (x : String × Nat) (l : List (String × Nat))
    (h : SortedDesc l) : SortedDesc (insertDesc x l) := by
  induction l with
  | nil => simp [insertDesc, SortedDesc]
  | cons y t ih =>
      rcases List.pairwise_cons.mp h with ⟨hy, ht⟩
      show SortedDesc (if x.2 ≤ y.2 then y :: insertDesc x t else x :: y :: t)
      by_cases hc : x.2 ≤ y.2
      · rw [if_pos hc]
        refine List.pairwise_cons.mpr ⟨fun z hz => ?_, ih ht⟩
        rcases List.mem_cons.mp ((insertDesc_perm x t).mem_iff.mp hz) with he | hzt
        · rw [he]; exact hc
        · exact hy z hzt
      · rw [if_neg hc]
        push_neg at hc
        refine List.pairwise_cons.mpr ⟨fun z hz => ?_, h⟩
        rcases List.mem_cons.mp hz with he | hzt
        · rw [he]; exact le_of_lt hc
        · exact le_trans (hy z hzt) (le_of_lt hc)

theorem insertDesc_filter (x : String × Nat) (l : List (String × Nat))
    (hs : SortedDesc l) (c : Nat) :
    (insertDesc x l).filter (fun p => p.2 == c) =
      l.filter (fun p => p.2 == c) ++ (if x.2 = c then [x] else []) := by
  induction l with
  | nil =>
      by_cases h : x.2 = c
      · have hb : (x.2 == c) = true := by simpa using h
        simp [insertDesc, List.filter_cons, h, hb]
      · have hb : (x.2 == c) = false := by simpa using h
        simp [insertDesc, List.filter_cons, h, hb]
  | cons y t ih =>
      rcases List.pairwise_cons.mp hs with ⟨hy, ht⟩
      show (if x.2 ≤ y.2 then y :: insertDesc x t else x :: y :: t).filter _ = _
      by_cases hc : x.2 ≤ y.2
      · rw [if_pos hc]
        cases hyc : (y.2 == c) <;>
          simp [List.filter_cons, hyc, ih ht]
      · rw [if_neg hc]
        push_neg at hc
        by_cases hxc : x.2 = c
        · have h0 : (y :: t).filter (fun p => p.2 == c) = [] := by
            refine List.filter_eq_nil_iff.mpr (fun z hz => ?_)
            have hzle : z.2 ≤ y.2 := by
              rcases List.mem_cons.mp hz with he | hzt
              · rw [he]
              · exact hy z hzt
            have : z.2 ≠ c := by omega
            simpa using this
          simp [List.filter_cons, hxc, h0]
        · have hb : (x.2 == c) = false := by simpa using hxc
          simp [List.filter_cons, hb, hxc]

theorem sortFold_sorted (l : List (String × Nat)) (acc : List (String × Nat))
    (h : SortedDesc acc) :
    SortedDesc (l.foldl (fun a x => insertDesc x a) acc) := by
  induction l generalizing acc with
  | nil => exact h
  | cons x xs ih => exact ih _ (insertDesc_sorted x acc h)

theorem pyStableSortDesc_sorted (l : List (String × Nat)) :
    SortedDesc (pyStableSortDesc l) :=
  sortFold_sorted l [] (by simp [SortedDesc])

theorem sortFold_perm (l : List (String × Nat)) (acc : List (String × Nat)) :
    List.Perm (l.foldl (fun a x => insertDesc x a) acc) (acc ++ l) := by
  induction l generalizing acc with
  | nil => simp
  | cons x xs ih =>
      simp only [List.foldl_cons]
      refine (ih (insertDesc x acc)).trans ?_
      refine (List.Perm.append_right xs (insertDesc_perm x acc)).trans ?_
      exact List.perm_middle.symm

theorem pyStableSortDesc_perm (l : List (String × Nat)) :
    List.Perm (pyStableSortDesc l) l := by
  simpa using sortFold_perm l []

theorem sortFold_filter (l : List (String × Nat)) (acc : List (String × Nat))
    (h : SortedDesc acc) (c : Nat) :
    (l.foldl (fun a x => insertDesc x a) acc).filter (fun p => p.2 == c) =
      acc.filter (fun p => p.2 == c) ++ l.filter (fun p => p.2 == c) := by
  induction l generalizing acc with
  | nil => simp
  | cons x xs ih =>
      simp only [List.foldl_cons]
      rw [ih _ (insertDesc_sorted x acc h)]
      rw [insertDesc_filter x acc h c]
      by_cases hxc : x.2 = c
      · have hb : (x.2 == c) = true := by simpa using hxc
        simp [List.filter_cons, hxc, hb]
      · have hb : (x.2 == c) = false := by simpa using hxc
        simp [List.filter_cons, hxc, hb]

theorem pyStableSortDesc_filter (l : List (String × Nat)) (c : Nat) :
    (pyStableSortDesc l).filter (fun p => p.2 == c) =
      l.filter (fun p => p.2 == c) := by
  simpa using sortFold_filter l [] (by simp [SortedDesc]) c

/-! Whitespace-strip and file-reading lemmas. -/

theorem mem_dropWhile_of_not (p : Char → Bool) (a : Char) (l : List Char)
    (ha : p a = false) (hm : a ∈ l) : a ∈ l.dropWhile p := by
  induction l with
  | nil => simp at hm
  | cons b t ih =>
      cases hb : p b
      · simpa [List.dropWhile_cons, hb] using hm
      · simp only [List.dropWhile_cons, hb, if_true]
        rcases List.mem_cons.mp hm with he | ht
        · rw [he] at ha; rw [ha] at hb; cases hb
        · simpa [hb] using ih ht

theorem head?_dropWhile_false (p : Char → Bool) (l : List Char) (a : Char)
    (h : (l.dropWhile p).head? = some a) : p a = false := by
  induction l with
  | nil => simp [List.dropWhile] at h
  | cons b t ih =>
      cases hb : p b
      · simp [List.dropWhile_cons, hb] at h
        rw [← h]; exact hb
      · simp only [List.dropWhile_cons, hb, if_true] at h
        exact ih (by simpa [hb] using h)

theorem mem_stripChars (a : Char) (l : List Char) (ha : isPySpace a = false)
    (hm : a ∈ l) : a ∈ stripChars l := by
  unfold stripChars
  rw [List.mem_reverse]
  apply mem_dropWhile_of_not _ _ _ ha
  rw [List.mem_reverse]
  exact mem_dropWhile_of_not _ _ _ ha hm

theorem stripChars_ne_nil (l : List Char) (h : ∃ a ∈ l, isPySpace a = false) :
    stripChars l ≠ [] := by
  rcases h with ⟨a, hm, ha⟩
  have hmem := mem_stripChars a l ha hm
  intro he
  rw [he] at hmem
  simp at hmem

theorem exists_nonspace_of_stripChars_ne_nil (l : List Char)
    (h : stripChars l ≠ []) : ∃ a ∈ stripChars l, isPySpace a = false := by
  cases hdd : (l.dropWhile isPySpace).reverse.dropWhile isPySpace with
  | nil =>
      exfalso
      apply h
      unfold stripChars
      rw [hdd]
      rfl
  | cons a t =>
      refine ⟨a, ?_, ?_⟩
      · show a ∈ stripChars l
        unfold stripChars
        rw [hdd, List.mem_reverse]
        exact List.mem_cons_self a t
      · exact head?_dropWhile_false isPySpace _ a (by rw [hdd]; rfl)

theorem pyStrip_data (s : String) : (pyStrip s).data = stripChars s.data := rfl

theorem pyStrip_ne_empty_of (s : String)
    (h : ∃ a ∈ s.data, isPySpace a = false) : pyStrip s ≠ "" := by
  intro he
  exact stripChars_ne_nil s.data h (congrArg String.data he)

theorem pyStrip_pyStrip_ne_empty (s : String) (h : pyStrip s ≠ "") :
    pyStrip (pyStrip s) ≠ "" := by
  have h1 : stripChars s.data ≠ [] := fun he => h (by
    show String.mk (stripChars s.data) = ""
    rw [he])
  rcases exists_nonspace_of_stripChars_ne_nil s.data h1 with ⟨a, hm, ha⟩
  exact pyStrip_ne_empty_of _ ⟨a, by rw [pyStrip_data]; exact hm, ha⟩

theorem read_foldl (files : List (String × FileRead)) (acc : List Document) :
    files.foldl readStep acc = acc ++ files.filterMap readFilter := by
  induction files generalizing acc with
  | nil => simp
  | cons f t ih =>
      cases hf : f.2 with
      | err =>
          simp [readStep, readFilter, hf, List.filterMap_cons, ih]
      | ok raw =>
          by_cases hr : pyStrip raw = ""
          · simp [readStep, readFilter, hf, hr, List.filterMap_cons, ih]
          · simp [readStep, readFilter, hf, hr, List.filterMap_cons, ih]

theorem read_eq_filterMap (files : List (String × FileRead)) :
    read_transcript_files files = files.filterMap readFilter := by
  unfold read_transcript_files
  rw [read_foldl]
  simp

theorem readFilter_some (f : String × FileRead) (d : Document)
    (h : readFilter f = some d) :
    ∃ raw, f.2 = .ok raw ∧ pyStrip raw ≠ "" ∧ d = ⟨f.1, pyStrip raw⟩ := by
  obtain ⟨name, fr⟩ := f
  cases fr with
  | err => simp [readFilter] at h
  | ok raw =>
      by_cases hr : pyStrip raw = ""
      · simp [readFilter, hr] at h
      · refine ⟨raw, rfl, hr, ?_⟩
        simp [readFilter, hr] at h
        exact h.symm

theorem key_unique {β : Type} (files : List (String × β))
    (hnd : (files.map Prod.fst).Nodup) (a b : String × β)
    (ha : a ∈ files) (hb : b ∈ files) (he : a.1 = b.1) : a = b := by
  induction files with
  | nil => simp at ha
  | cons f t ih =>
      simp only [List.map_cons, List.nodup_cons] at hnd
      rcases List.mem_cons.mp ha with rfl | hat
      · rcases List.mem_cons.mp hb with rfl | hbt
        · rfl
        · exfalso
          apply hnd.1
          rw [he]
          exact List.mem_map_of_mem Prod.fst hbt
      · rcases List.mem_cons.mp hb with rfl | hbt
        · exfalso
          apply hnd.1
          rw [← he]
          exact List.mem_map_of_mem Prod.fst hat
        · exact ih hnd.2 hat hbt

/-! Helpers about state fields preserved by the pipeline. -/

theorem save_recommended_tags (s : AccumulatedState) (br : BatchResults) :
    (save_batch_results s br).recommended_tags = s.recommended_tags := rfl

theorem foldl_save_recommended_tags
    (batches : List (List (Document × ApiOutcome))) (s : AccumulatedState) :
    (batches.foldl (fun st b => save_batch_results st (process_batch b))
      s).recommended_tags = s.recommended_tags := by
  induction batches generalizing s with
  | nil => rfl
  | cons b t ih =>
      simp only [List.foldl_cons]
      rw [ih]
      exact save_recommended_tags s (process_batch b)

theorem run_merges_recommended_tags
    (batches : List (List (Document × ApiOutcome))) :
    (run_merges batches).recommended_tags = none :=
  foldl_save_recommended_tags batches emptyState

theorem mem_keys_of_dictGet_some (k : String) (m : List (String × α)) (v : α)
    (h : dictGet k m = some v) : k ∈ m.map Prod.fst := by
  by_contra hc
  rw [(dictGet_eq_none_iff k m).mpr hc] at h
  cases h

/-! Claim C1. -/

/-- Claim C1 is false on the code at a concrete input: a document whose
classification call fails (`ApiOutcome.fail`: API error, timeout, or non-JSON
output, all caught at line 148) is stored in the merged results with an empty
tag list, contributes 1 to `total_transcripts_analyzed`, and a subsequent
resume run returns an empty remaining work list instead of offering the
document again. -/
theorem claim1_counterexample :
    dictGet "a.txt" (save_batch_results emptyState
        (process_batch [(⟨"a.txt", "hello"⟩,
          ApiOutcome.fail)])).individual_transcript_analysis = some ⟨[], []⟩ ∧
    (save_batch_results emptyState
        (process_batch [(⟨"a.txt", "hello"⟩,
          ApiOutcome.fail)])).total_transcripts_analyzed = 1 ∧
    resume_work_list true
      (some (save_batch_results emptyState
        (process_batch [(⟨"a.txt", "hello"⟩, ApiOutcome.fail)])))
      [⟨"a.txt", "hello"⟩] = [] := by
  decide

/-- Claim C1 amended: a document whose classification call errors, times out,
or returns output that is not JSON is caught inside
`analyze_transcript_for_tags` and recorded as successfully processed with an
empty label list — after the merge its id IS a key of the results mapping, it
contributes 1 to `total_transcripts_analyzed`, and a resume run excludes it
from the remaining work.  Only a document whose output parses as JSON but is
not a JSON object escapes as an exception and is dropped: its id stays absent,
the total is unchanged, and a resume run includes it. -/
theorem claim1_amended (s : AccumulatedState) (name text : String)
    (ts : List Document)
    (hfresh : dictGet name s.individual_transcript_analysis = none) :
    (dictGet name (save_batch_results s
        (process_batch [(⟨name, text⟩,
          ApiOutcome.fail)])).individual_transcript_analysis = some ⟨[], []⟩ ∧
      (save_batch_results s (process_batch [(⟨name, text⟩,
        ApiOutcome.fail)])).total_transcripts_analyzed =
        s.total_transcripts_analyzed + 1 ∧
      ∀ d ∈ ts, d.filename = name →
        d ∉ resume_work_list true
          (some (save_batch_results s
            (process_batch [(⟨name, text⟩, ApiOutcome.fail)]))) ts) ∧
    (dictGet name (save_batch_results s
        (process_batch [(⟨name, text⟩,
          ApiOutcome.nonDict)])).individual_transcript_analysis = none ∧
      (save_batch_results s (process_batch [(⟨name, text⟩,
        ApiOutcome.nonDict)])).total_transcripts_analyzed =
        s.total_transcripts_analyzed ∧
      ∀ d ∈ ts, d.filename = name →
        d ∈ resume_work_list true
          (some (save_batch_results s
            (process_batch [(⟨name, text⟩, ApiOutcome.nonDict)]))) ts) := by
  have hok : okResults [(⟨name, text⟩, ApiOutcome.fail)] =
      [(name, (⟨[], []⟩ : ClassificationResult))] := rfl
  have hok2 : okResults [(⟨name, text⟩, ApiOutcome.nonDict)] = [] := rfl
  have hnd : (storedNames [(⟨name, text⟩, ApiOutcome.fail)]).Nodup := by
    simp [storedNames, hok]
  have hf : ∀ n ∈ storedNames [(⟨name, text⟩, ApiOutcome.fail)],
      dictGet n s.individual_transcript_analysis = none := by
    intro n hn
    simp [storedNames, hok] at hn
    rw [hn]
    exact hfresh
  have hnotmem : name ∉ s.individual_transcript_analysis.map Prod.fst :=
    (dictGet_eq_none_iff _ _).mp hfresh
  have hita := save_ita_fresh s _ hnd hf
  have hget : dictGet name (save_batch_results s
      (process_batch [(⟨name, text⟩,
        ApiOutcome.fail)])).individual_transcript_analysis = some ⟨[], []⟩ := by
    rw [hita, hok, dictGet_append_of_not_mem _ _ _ hnotmem]
    simp [dictGet]
  have hita2 : (save_batch_results s
      (process_batch [(⟨name, text⟩,
        ApiOutcome.nonDict)])).individual_transcript_analysis =
      s.individual_transcript_analysis := by
    rw [save_ita_fresh s _ (by simp [storedNames, hok2])
      (by simp [storedNames, hok2]), hok2]
    simp
  refine ⟨⟨hget, ?_, ?_⟩, ?_, ?_, ?_⟩
  · rw [save_tta, process_batch_tta, hok]
    rfl
  · intro d hd hdn hmem
    have hkeys := mem_keys_of_dictGet_some _ _ _ hget
    simp only [resume_work_list, List.mem_filter, decide_eq_true_eq] at hmem
    exact hmem.2 (hdn ▸ hkeys)
  · rw [hita2]
    exact hfresh
  · rw [save_tta, process_batch_tta, hok2]
    rfl
  · intro d hd hdn
    simp only [resume_work_list, List.mem_filter, decide_eq_true_eq]
    refine ⟨hd, ?_⟩
    rw [hita2, hdn]
    exact hnotmem

/-- Witness for `claim1_amended` at a concrete input. -/
theorem claim1_witness :
    dictGet "a.txt" emptyState.individual_transcript_analysis = none ∧
    dictGet "a.txt" (save_batch_results emptyState
        (process_batch [(⟨"a.txt", "x"⟩,
          ApiOutcome.fail)])).individual_transcript_analysis = some ⟨[], []⟩ :=
  ⟨rfl, (claim1_amended emptyState "a.txt" "x" [⟨"a.txt", "x"⟩] rfl).1.1⟩

/-! Claim C2. -/

/-- Claim C2 is false on the code at a concrete input: after merging a batch
whose single stored result has labels `["t", "t"]`, the accumulated
`tag_frequency["t"]` is 2, while exactly 1 entry of the results mapping has a
labels sequence containing `"t"`. -/
theorem claim2_counterexample :
    dictGet "t" (save_batch_results emptyState
        (process_batch [(⟨"a.txt", "x"⟩,
          ApiOutcome.dict ["t", "t"] [])])).tag_frequency = some 2 ∧
    ((save_batch_results emptyState
        (process_batch [(⟨"a.txt", "x"⟩,
          ApiOutcome.dict ["t", "t"] [])])).individual_transcript_analysis.filter
        (fun p => p.2.tags.contains "t")).length = 1 := by
  decide

/-- Claim C2 amended: the frequency invariant holds in occurrence form and for
duplicate-free merges — the empty state satisfies it, and it is preserved by
merging any batch whose successfully stored document ids are pairwise distinct
and not already keys of the results mapping; `label_frequency[l]` then equals
the total number of occurrences of `l` across all stored labels sequences
(which is the number of entries containing `l` whenever no labels sequence
repeats a label).  Merging a duplicate id or a result with repeated labels can
break the entry-count reading, per the counterexample. -/
theorem claim2_amended :
    FreqInvariant emptyState ∧
    ∀ (s : AccumulatedState) (batch : List (Document × ApiOutcome)),
      FreqInvariant s → (storedNames batch).Nodup →
      (∀ n ∈ storedNames batch,
        dictGet n s.individual_transcript_analysis = none) →
      FreqInvariant (save_batch_results s (process_batch batch)) := by
  refine ⟨fun l => rfl, ?_⟩
  intro s batch hI hnd hfresh l
  have hita := save_ita_fresh s batch hnd hfresh
  have h1 := save_tf_getD s (process_batch batch) l
  rw [h1, process_batch_tf, sumValuesFor_counterOf, hI l, hita,
    labelOccurrences_append]
  congr 1
  rw [labelOccurrences_eq_countL_allTags]
  rfl

/-- Witness for `claim2_amended` at a concrete input. -/
theorem claim2_witness :
    FreqInvariant (save_batch_results emptyState
      (process_batch [(⟨"b.txt", "y"⟩, ApiOutcome.dict ["u"] [])])) :=
  claim2_amended.2 emptyState [(⟨"b.txt", "y"⟩, ApiOutcome.dict ["u"] [])]
    claim2_amended.1 (by decide) (by decide)

/-! Claim C3. -/

/-- Claim C3 is false on the code at a concrete input: the snapshot write of
`save_batch_results` (a direct truncate-then-stream write to the output path,
with no temporary file and no rename) is not atomic with respect to readers —
with previous contents `"A"` and new contents `"BC"`, a reader can observe the
truncated empty file, which is neither snapshot. -/
theorem claim3_counterexample :
    ¬ AtomicSnapshotWrite "A" "BC" (persistObservable "A" "BC") := by
  unfold AtomicSnapshotWrite
  decide

/-- Claim C3 amended: the snapshot is persisted by opening the output path in
write mode (truncating it in place) and serializing directly into it; no
write-to-temp-then-rename swap is performed, so whenever the previous and the
new snapshot contents are non-empty, a concurrent reader can observe a state
that is neither the complete previous nor the complete new snapshot (for
instance the empty truncated file). -/
theorem claim3_amended (old new : String) (h1 : old ≠ "") (h2 : new ≠ "") :
    ∃ s ∈ persistObservable old new, s ≠ old ∧ s ≠ new := by
  refine ⟨"", ?_, fun he => h1 he.symm, fun he => h2 he.symm⟩
  show ("" : String) ∈ old ::
    (List.range (new.length + 1)).map (fun n => String.mk (new.data.take n))
  refine List.mem_cons_of_mem _ (List.mem_map.mpr ⟨0, ?_, rfl⟩)
  exact List.mem_range.mpr (Nat.succ_pos _)

/-- Witness for `claim3_amended` at a concrete input. -/
theorem claim3_witness :
    ("A" : String) ≠ "" ∧ ("BC" : String) ≠ "" ∧
    ∃ s ∈ persistObservable "A" "BC", s ≠ "A" ∧ s ≠ "BC" :=
  ⟨by decide, by decide, claim3_amended "A" "BC" (by decide) (by decide)⟩

/-! Claim C4. -/

/-- Claim C4 is false on the code at a concrete input: with two batches where
the first batch's snapshot write fails, both batches are still dispatched (the
exception is caught and printed inside `save_batch_results`, and the loop of
`generate_comprehensive_tag_suggestions` continues); the failed batch's
results are absent from the final persisted state while the second batch's
results are present — so the run did proceed past the failed save. -/
theorem claim4_counterexample :
    (schedule_batches
      [([(⟨"a.txt", "x"⟩, ApiOutcome.dict ["t"] [])], false),
       ([(⟨"b.txt", "y"⟩, ApiOutcome.dict ["u"] [])], true)] emptyState).1 = 2 ∧
    (schedule_batches
      [([(⟨"a.txt", "x"⟩, ApiOutcome.dict ["t"] [])], false),
       ([(⟨"b.txt", "y"⟩, ApiOutcome.dict ["u"] [])], true)] emptyState).1 ≠ 1 ∧
    dictGet "a.txt" (schedule_batches
      [([(⟨"a.txt", "x"⟩, ApiOutcome.dict ["t"] [])], false),
       ([(⟨"b.txt", "y"⟩, ApiOutcome.dict ["u"] [])], true)]
      emptyState).2.individual_transcript_analysis = none ∧
    dictGet "b.txt" (schedule_batches
      [([(⟨"a.txt", "x"⟩, ApiOutcome.dict ["t"] [])], false),
       ([(⟨"b.txt", "y"⟩, ApiOutcome.dict ["u"] [])], true)]
      emptyState).2.individual_transcript_analysis = some ⟨["u"], []⟩ := by
  decide

/-- Claim C4 amended: a failed snapshot write is caught and logged inside
`save_batch_results`; the failed batch's merge is not persisted (its documents
stay absent and remain eligible for resume), but the run continues — every
batch is dispatched regardless of earlier save failures, and the final
persisted state is the fold of merges over exactly the batches whose saves
succeeded. -/
theorem claim4_amended (l : List (List (Document × ApiOutcome) × Bool))
    (s : AccumulatedState) :
    (schedule_batches l s).1 = l.length ∧
    (schedule_batches l s).2 =
      l.foldl (fun st p =>
        if p.2 then save_batch_results st (process_batch p.1) else st) s := by
  induction l generalizing s with
  | nil => exact ⟨rfl, rfl⟩
  | cons b rest ih =>
      obtain ⟨batch, ok⟩ := b
      have hu : schedule_batches ((batch, ok) :: rest) s =
          ((schedule_batches rest
            (if ok then save_batch_results s (process_batch batch) else s)).1 + 1,
           (schedule_batches rest
            (if ok then save_batch_results s (process_batch batch) else s)).2) := rfl
      rw [hu]
      refine ⟨?_, ?_⟩
      · rw [(ih _).1]
        simp
      · rw [(ih _).2]
        simp

/-! Claim C5. -/

/-- Claim C5 is false on the code at a concrete input: the state obtained by
one merge from empty is valid (it satisfies the totals invariant), yet merging
the same batch outcome into it again yields
`total_transcripts_analyzed = 2` while the results mapping still has exactly 1
key (the duplicate id was overwritten). -/
theorem claim5_counterexample :
    TotalsInvariant (save_batch_results emptyState
      (process_batch [(⟨"a.txt", "x"⟩, ApiOutcome.dict ["t"] [])])) ∧
    (save_batch_results
        (save_batch_results emptyState
          (process_batch [(⟨"a.txt", "x"⟩, ApiOutcome.dict ["t"] [])]))
        (process_batch [(⟨"a.txt", "x"⟩,
          ApiOutcome.dict ["t"] [])])).total_transcripts_analyzed = 2 ∧
    (save_batch_results
        (save_batch_results emptyState
          (process_batch [(⟨"a.txt", "x"⟩, ApiOutcome.dict ["t"] [])]))
        (process_batch [(⟨"a.txt", "x"⟩,
          ApiOutcome.dict ["t"] [])])).individual_transcript_analysis.length = 1 := by
  constructor
  · exact ⟨by decide, by decide⟩
  · exact ⟨by decide, by decide⟩

/-- Claim C5 amended: after merging a batch outcome whose successfully stored
document ids are pairwise distinct and not already keys of the results
mapping, into a state satisfying the totals invariant,
`total_transcripts_analyzed` equals the number of keys of the results mapping
and `total_tags_generated` equals the summed lengths of the stored labels
sequences; the empty state satisfies the invariant.  Re-merging an id already
present increments the totals without growing the results mapping, refuting
the unconditional claim (see the counterexample). -/
theorem claim5_amended :
    TotalsInvariant emptyState ∧
    ∀ (s : AccumulatedState) (batch : List (Document × ApiOutcome)),
      TotalsInvariant s → (storedNames batch).Nodup →
      (∀ n ∈ storedNames batch,
        dictGet n s.individual_transcript_analysis = none) →
      TotalsInvariant (save_batch_results s (process_batch batch)) := by
  refine ⟨⟨rfl, rfl⟩, ?_⟩
  intro s batch hT hnd hfresh
  have hita := save_ita_fresh s batch hnd hfresh
  constructor
  · rw [save_tta, process_batch_tta, hita, List.length_append, hT.1]
  · rw [save_ttg, process_batch_ttg, hita, List.map_append, List.sum_append, hT.2]

/-- Witness for `claim5_amended` at a concrete input. -/
theorem claim5_witness :
    TotalsInvariant (save_batch_results emptyState
      (process_batch [(⟨"c.txt", "z"⟩, ApiOutcome.dict ["v", "w"] [])])) :=
  claim5_amended.2 emptyState [(⟨"c.txt", "z"⟩, ApiOutcome.dict ["v", "w"] [])]
    claim5_amended.1 (by decide) (by decide)

/-! Claim C6. -/

/-- Claim C6 is false on the code at a concrete input, in its warning part:
merging a batch outcome whose document id `"a.txt"` is already a key of the
results mapping produces exactly the same printed output as a merge with no
duplicate at all (the single fixed `Batch results saved` line) — no warning is
emitted — while the prior entry is silently overwritten with the new
ClassificationResult. -/
theorem claim6_counterexample :
    (save_batch_results_with_log
        (save_batch_results emptyState
          (process_batch [(⟨"a.txt", "x"⟩,
            ApiOutcome.dict ["customer_happy"] [])]))
        (process_batch [(⟨"a.txt", "y"⟩,
          ApiOutcome.dict ["technical_issue"] [])])
        "out.json" (some 2)).2 =
      (save_batch_results_with_log emptyState
        (process_batch [(⟨"b.txt", "z"⟩, ApiOutcome.dict [] [])])
        "out.json" (some 2)).2 ∧
    dictGet "a.txt" (save_batch_results_with_log
        (save_batch_results emptyState
          (process_batch [(⟨"a.txt", "x"⟩,
            ApiOutcome.dict ["customer_happy"] [])]))
        (process_batch [(⟨"a.txt", "y"⟩,
          ApiOutcome.dict ["technical_issue"] [])])
        "out.json" (some 2)).1.individual_transcript_analysis =
      some ⟨["technical_issue"], []⟩ := by
  constructor
  · rfl
  · decide

/-- Claim C6 amended: when a batch outcome containing a document id already
present in the results mapping is merged, the prior entry is overwritten by
the new ClassificationResult and the run is not rejected (the merge completes
and `batches_processed` is incremented), but the overwrite is silent: the
printed output of `save_batch_results` is the fixed saved-line, identical for
every state and batch, so no warning distinguishes the duplicate case. -/
theorem claim6_amended (s : AccumulatedState) (br : BatchResults)
    (name : String) (r : ClassificationResult) (file : String) (bn : Option Nat)
    (hnd : (br.individual_transcript_analysis.map Prod.fst).Nodup)
    (hmem : (name, r) ∈ br.individual_transcript_analysis) :
    dictGet name
      (save_batch_results s br).individual_transcript_analysis = some r ∧
    (save_batch_results s br).batches_processed = s.batches_processed + 1 ∧
    (save_batch_results_with_log s br file bn).2 =
      save_batch_results_log file bn ∧
    ∀ (s' : AccumulatedState) (br' : BatchResults),
      (save_batch_results_with_log s br file bn).2 =
        (save_batch_results_with_log s' br' file bn).2 := by
  refine ⟨?_, rfl, rfl, fun s' br' => rfl⟩
  show dictGet name (dictUpdate s.individual_transcript_analysis
    br.individual_transcript_analysis) = some r
  exact dictGet_dictUpdate_of_mem name r _ _ hnd hmem

/-- Witness for `claim6_amended` at a concrete input (the duplicate id
`"a.txt"` is already present in the prior state and gets the new value). -/
theorem claim6_witness :
    dictGet "a.txt" (save_batch_results
        (save_batch_results emptyState
          (process_batch [(⟨"a.txt", "x"⟩,
            ApiOutcome.dict ["customer_happy"] [])]))
        (process_batch [(⟨"a.txt", "y"⟩,
          ApiOutcome.dict ["technical_issue"]
            [])])).individual_transcript_analysis =
      some ⟨["technical_issue"], []⟩ :=
  (claim6_amended
    (save_batch_results emptyState
      (process_batch [(⟨"a.txt", "x"⟩, ApiOutcome.dict ["customer_happy"] [])]))
    (process_batch [(⟨"a.txt", "y"⟩, ApiOutcome.dict ["technical_issue"] [])])
    "a.txt" ⟨["technical_issue"], []⟩ "out.json" (some 2)
    (by decide) (by decide)).1

/-! Claim C7. -/

/-- Claim C7 confirmed: whenever the categorization call fails or returns
unparseable output, `generate_final_recommendations` returns exactly the
single-category mapping `Most_Common_Tags` holding the first 10 labels of the
stable descending sort of `label_frequency`; that sort is a permutation of
`label_frequency`, is ordered by non-increasing count, and within each count
preserves the first-seen insertion order of `label_frequency` (stability,
expressed as filter-equality at every count). -/
theorem claim7_confirmed (freq : List (String × Nat)) :
    generate_final_recommendations CategorizeOutcome.fail freq =
      [("Most_Common_Tags", ((pyStableSortDesc freq).map Prod.fst).take 10)] ∧
    List.Perm (pyStableSortDesc freq) freq ∧
    SortedDesc (pyStableSortDesc freq) ∧
    ∀ c, (pyStableSortDesc freq).filter (fun p => p.2 == c) =
      freq.filter (fun p => p.2 == c) := by
  refine ⟨?_, pyStableSortDesc_perm freq, pyStableSortDesc_sorted freq,
    fun c => pyStableSortDesc_filter freq c⟩
  show [("Most_Common_Tags", ((most_common 20 freq).map Prod.fst).take 10)] = _
  unfold most_common
  rw [List.map_take, List.take_take]
  norm_num

/-! Claim C8. -/

/-- Claim C8 confirmed: on a resume run the work list handed to the pipeline
is exactly the filter — hence an in-order subsequence — of the full document
sequence keeping the documents whose filename is not a key of the prior
state's results mapping; and when no prior state exists the full sequence is
processed. -/
theorem claim8_confirmed (ts : List Document) (st : AccumulatedState)
    (r : Bool) :
    resume_work_list true (some st) ts =
      ts.filter (fun t => decide
        (t.filename ∉ st.individual_transcript_analysis.map Prod.fst)) ∧
    List.Sublist (resume_work_list true (some st) ts) ts ∧
    (∀ d, d ∈ resume_work_list true (some st) ts ↔
      d ∈ ts ∧ d.filename ∉ st.individual_transcript_analysis.map Prod.fst) ∧
    resume_work_list r none ts = ts := by
  refine ⟨rfl, List.filter_sublist _, fun d => ?_, ?_⟩
  · simp [resume_work_list, List.mem_filter]
  · cases r <;> rfl

/-! Claim C9. -/

/-- Claim C9 confirmed: every document returned by `read_transcript_files` has
content that is non-empty and still non-empty after stripping whitespace (the
stored content is the stripped file content), and a file that read
successfully but whose content strips to empty contributes no document — given
distinct filenames, its name does not appear among the returned documents. -/
theorem claim9_confirmed (files : List (String × FileRead)) :
    (∀ d ∈ read_transcript_files files,
      d.content ≠ "" ∧ pyStrip d.content ≠ "") ∧
    ((files.map Prod.fst).Nodup →
      ∀ name raw, (name, FileRead.ok raw) ∈ files → pyStrip raw = "" →
        ∀ d ∈ read_transcript_files files, d.filename ≠ name) := by
  constructor
  · intro d hd
    rw [read_eq_filterMap] at hd
    rcases List.mem_filterMap.mp hd with ⟨f, hf, hsome⟩
    rcases readFilter_some f d hsome with ⟨raw, hraw, hne, hdef⟩
    subst hdef
    exact ⟨hne, pyStrip_pyStrip_ne_empty raw hne⟩
  · intro hnd name raw hmem hstrip d hd heq
    rw [read_eq_filterMap] at hd
    rcases List.mem_filterMap.mp hd with ⟨f, hf, hsome⟩
    rcases readFilter_some f d hsome with ⟨raw', hraw', hne', hdef⟩
    have hf1 : f.1 = name := by
      rw [← heq, hdef]
    have hfe : f = (name, FileRead.ok raw) :=
      key_unique files hnd f (name, FileRead.ok raw) hf hmem (by rw [hf1])
    apply hne'
    have h2 : FileRead.ok raw' = FileRead.ok raw := by
      rw [← hraw', hfe]
    injection h2 with h3
    rw [h3]
    exact hstrip

/-- Witness for `claim9_confirmed` at a concrete input. -/
theorem claim9_witness :
    (("hi" : String) ≠ "" ∧ pyStrip "hi" ≠ "") ∧
    (∀ d ∈ read_transcript_files
        [("a.txt", FileRead.ok "  hi  "), ("b.txt", FileRead.ok " \n "),
         ("c.txt", FileRead.err)], d.filename ≠ "b.txt") :=
  ⟨(claim9_confirmed [("a.txt", FileRead.ok "  hi  ")]).1
      ⟨"a.txt", "hi"⟩ (by decide),
   (claim9_confirmed
      [("a.txt", FileRead.ok "  hi  "), ("b.txt", FileRead.ok " \n "),
       ("c.txt", FileRead.err)]).2
      (by decide) "b.txt" " \n " (by decide) (by decide)⟩

/-! Claim C10. -/

/-- Claim C10 confirmed: at the end of a full run (any sequence of batch
merges starting from the empty state, all saves succeeding), if the
accumulated `tag_frequency` mapping is empty, the recommendation engine is not
invoked and the final persisted results value carries no `recommended_tags`
key at all. -/
theorem claim10_confirmed (batches : List (List (Document × ApiOutcome)))
    (api : CategorizeOutcome)
    (hempty : (run_merges batches).tag_frequency = []) :
    finalize_results api (run_merges batches) = (false, run_merges batches) ∧
    (finalize_results api (run_merges batches)).2.recommended_tags = none := by
  have h1 : finalize_results api (run_merges batches) =
      (false, run_merges batches) := by
    unfold finalize_results
    rw [if_pos hempty]
  refine ⟨h1, ?_⟩
  rw [h1]
  exact run_merges_recommended_tags batches

/-- Witness for `claim10_confirmed` at a concrete input. -/
theorem claim10_witness :
    (run_merges []).tag_frequency = [] ∧
    finalize_results CategorizeOutcome.fail (run_merges []) =
      (false, run_merges []) ∧
    (finalize_results CategorizeOutcome.fail
      (run_merges [])).2.recommended_tags = none :=
  ⟨rfl, (claim10_confirmed [] CategorizeOutcome.fail rfl).1,
    (claim10_confirmed [] CategorizeOutcome.fail rfl).2⟩

end TagAnalyzer
